import Mathlib

/-!
Verification development for the prefix-autocomplete subsystem of the
cotishama quotation builder: a shallow embedding of the `Trie` class of
`src/assets/js/state.js` and the `ProductAutocomplete` controller of
`src/assets/js/autocomplete.js`, together with theorems settling the
behavioural claims about insertion, lookup, ranking, caching and
configuration handling.
-/

set_option maxHeartbeats 1000000

namespace Cotishama

/-- JS strings are modelled as lists of characters. -/
abbrev Str := List Char

/-- JS `String.prototype.toLowerCase`, modelled as a per-character fold. -/
def lower (s : Str) : Str := s.map Char.toLower

/-- JS `String.prototype.toUpperCase`, modelled as a per-character fold. -/
def upper (s : Str) : Str := s.map Char.toUpper

/-- A node of the trie (`TrieNode` in `state.js`): an insertion-ordered
children map, the end-of-word flag, the stored complete word, and the
frequency and popularity counters. -/
inductive TrieNode where
| mk (children : List (Char × TrieNode)) (isEndOfWord : Bool)
    (word : Option Str) (frequency : Nat) (popularity : Nat)

def TrieNode.children : TrieNode → List (Char × TrieNode)
| .mk cs _ _ _ _ => cs

def TrieNode.isEndOfWord : TrieNode → Bool
| .mk _ e _ _ _ => e

def TrieNode.word : TrieNode → Option Str
| .mk _ _ w _ _ => w

def TrieNode.frequency : TrieNode → Nat
| .mk _ _ _ f _ => f

def TrieNode.popularity : TrieNode → Nat
| .mk _ _ _ _ p => p

/-- The constructor `new TrieNode()`: empty children, not a word end, no stored word,
zero counters. -/
def TrieNode.empty : TrieNode := .mk [] false none 0 0

/-- Lookup `children[char]` in the insertion-ordered children map. -/
def findChild : List (Char × TrieNode) → Char → Option TrieNode
| [], _ => none
| (c, m) :: rest, d => if c = d then some m else findChild rest d

/-- Assignment `children[char] = node`: update in place when the key exists,
otherwise append (JS object property insertion order). -/
def setChild : List (Char × TrieNode) → Char → TrieNode → List (Char × TrieNode)
| [], d, m => [(d, m)]
| (c, n) :: rest, d, m => if c = d then (d, m) :: rest else (c, n) :: setChild rest d m

/-- The statement `current.popularity = (current.popularity || 0) + 1`. -/
def TrieNode.bumpPop : TrieNode → TrieNode
| .mk cs e w f p => .mk cs e w f (p + 1)

/-- The loop body of `Trie.insert`: walk/extend the trie along `path`
(the lowercased word), incrementing popularity on every visited or
created node, then mark the final node terminal, store the literal
`word` there and increment its frequency. -/
def insertAux : TrieNode → Str → Str → TrieNode
| .mk cs _ w₀ f p, [], word =>
    let _ := w₀
    .mk cs true (some word) (f + 1) p
| .mk cs e w f p, c :: rest, word =>
    let child := ((findChild cs c).getD TrieNode.empty).bumpPop
    .mk (setChild cs c (insertAux child rest word)) e w f p

/-- Walk from a node along a character path; `none` as soon as a
character has no child. -/
def nodeAt : TrieNode → Str → Option TrieNode
| n, [] => some n
| n, c :: rest => (findChild n.children c).bind fun m => nodeAt m rest

/-- The `Trie` class of `state.js`: root node, autocomplete result
cache (a JS `Map`, modelled as an insertion-ordered association list)
and its size bound. -/
structure Trie where
  root : TrieNode
  cache : List (Str × List Str)
  maxCacheSize : Nat

/-- The constructor `new Trie()` (no initial words): empty root, empty cache,
`maxCacheSize = 1000`. -/
def Trie.new : Trie := ⟨TrieNode.empty, [], 1000⟩

/-- Method `Trie.insert(word)`: walk the lowercased characters storing the
literal word at the terminal node, then clear the autocomplete cache. -/
def Trie.insert (t : Trie) (word : Str) : Trie :=
  { root := insertAux t.root (lower word) word, cache := [], maxCacheSize := t.maxCacheSize }

/-- Method `Trie.bulkInsert(words)`: insert each word in order. -/
def Trie.bulkInsert (t : Trie) (words : List Str) : Trie :=
  words.foldl Trie.insert t

/-- A trie built from scratch by a sequence of `insert` calls. -/
def buildTrie (words : List Str) : Trie := Trie.new.bulkInsert words

/-- Method `Trie.search(word)`: walk the lowercased word; true iff the final
node exists and is marked end-of-word. -/
def Trie.search (t : Trie) (word : Str) : Bool :=
  match nodeAt t.root (lower word) with
  | none => false
  | some n => n.isEndOfWord

/-- Method `Trie.startsWith(pfx)`: walk the lowercased argument; true iff every
character has a path. -/
def Trie.startsWith (t : Trie) (p : Str) : Bool :=
  (nodeAt t.root (lower p)).isSome

/-- The record pushed by `collectSuggestions`: the stored word with the
terminal node's frequency and popularity. -/
structure Sugg where
  word : Str
  frequency : Nat
  popularity : Nat
deriving DecidableEq, Repr

/-- The word-length window check of `collectSuggestions`
(`wordLength >= minWordLength && wordLength <= maxWordLength`, with
`maxWordLength = Infinity` modelled as `none`). -/
def lenOK (minL : Nat) (maxL : Option Nat) (n : Nat) : Bool :=
  decide (minL ≤ n) &&
    match maxL with
    | none => true
    | some m => decide (n ≤ m)

mutual

/-- The DFS helper `collectSuggestions(node, currentWord)` of
`Trie.autocomplete`: push the stored word (with frequency and
popularity) at every end-of-word node whose current word length passes
the window, then recurse into the children in order. -/
def collect : TrieNode → Str → Nat → Option Nat → List Sugg
| .mk cs e w f p, cur, minL, maxL =>
    (if e && lenOK minL maxL cur.length then [⟨w.getD [], f, p⟩] else [])
      ++ collectList cs cur minL maxL

def collectList : List (Char × TrieNode) → Str → Nat → Option Nat → List Sugg
| [], _, _, _ => []
| (c, m) :: rest, cur, minL, maxL =>
    collect m (cur ++ [c]) minL maxL ++ collectList rest cur minL maxL

end

/-- The ranking comparator of `Trie.autocomplete` read as a boolean
"sorts no later than": frequency descending, then popularity
descending, then word length ascending (a stable sort with the JS
comparator puts `a` no later than `b` exactly when this holds). -/
def rankLE (a b : Sugg) : Bool :=
  if a.frequency ≠ b.frequency then decide (b.frequency < a.frequency)
  else if a.popularity ≠ b.popularity then decide (b.popularity < a.popularity)
  else decide (a.word.length ≤ b.word.length)

/-- The call `suggestions.sort(comparator)`: JS `Array.prototype.sort` is a
stable sort, modelled by `List.mergeSort` with `rankLE`. -/
def rankSuggestions (l : List Sugg) : List Sugg :=
  List.mergeSort l rankLE

/-- Method `Map.prototype.get` on the result cache. -/
def lookupCache : List (Str × List Str) → Str → Option (List Str)
| [], _ => none
| (k, v) :: rest, q => if k = q then some v else lookupCache rest q

/-- Method `Map.prototype.set`: overwrite in place when the key is present,
otherwise append (JS `Map` preserves insertion order). -/
def mapSet (c : List (Str × List Str)) (k : Str) (v : List Str) :
    List (Str × List Str) :=
  if c.any fun e => decide (e.1 = k) then
    c.map fun e => if e.1 = k then (k, v) else e
  else c ++ [(k, v)]

/-- The cache-store step shared by `Trie.autocomplete` and
`ProductAutocomplete.getSuggestions`: when the cache has reached its
size bound, first delete the oldest-inserted entry
(`cache.keys().next().value`), then store the new result. -/
def cacheStore (maxSize : Nat) (c : List (Str × List Str)) (k : Str)
    (v : List Str) : List (Str × List Str) :=
  if maxSize ≤ c.length then mapSet c.tail k v else mapSet c k v

/-- The options object of `Trie.autocomplete` with its destructuring
defaults (`limit = 10`, `caseSensitive = false`, `minWordLength = 1`,
`maxWordLength = Infinity` as `none`). -/
structure AutoOptions where
  limit : Nat
  caseSensitive : Bool
  minWordLength : Nat
  maxWordLength : Option Nat
deriving DecidableEq, Repr

def defaultAutoOptions : AutoOptions := ⟨10, false, 1, none⟩

/-- The string tag prepended to the cache key
(`` `autocomplete_${normalizedPrefix}` ``). -/
def cacheTag : Str := "autocomplete_".toList

/-- The result of `Trie.autocomplete`: the suggestion array, the
updated trie (the call may populate the result cache), and a probe
recording whether the call descended into the trie at all (`false`
exactly on the cache-hit early return). -/
structure AutoResult where
  suggestions : List Str
  trie : Trie
  traversed : Bool

/-- Method `Trie.autocomplete(prefix, options)`: normalize the query, return
a cached result when present; otherwise walk to the node of the
normalized query (empty result, and no caching, when a character is
missing), collect the subtree's terminal words, rank them, truncate to
`limit`, store in the cache (evicting the oldest entry at capacity)
and return. -/
def Trie.autocomplete (t : Trie) (p : Str) (o : AutoOptions) : AutoResult :=
  let normalized := if o.caseSensitive then p else lower p
  let key := cacheTag ++ normalized
  match lookupCache t.cache key with
  | some v => ⟨v, t, false⟩
  | none =>
    match nodeAt t.root normalized with
    | none => ⟨[], t, true⟩
    | some n =>
      let ranked :=
        ((rankSuggestions (collect n normalized o.minWordLength o.maxWordLength)).map
          Sugg.word).take o.limit
      ⟨ranked,
       { root := t.root, cache := cacheStore t.maxCacheSize t.cache key ranked,
         maxCacheSize := t.maxCacheSize }, true⟩

/-- Method `Trie.getSuggestions(prefix, limit = 10)`: convenience wrapper
around `autocomplete` setting only `limit`. -/
def Trie.getSuggestions (t : Trie) (p : Str) (limit : Nat) : AutoResult :=
  t.autocomplete p ⟨limit, false, 1, none⟩

/-- The options object accepted by the `ProductAutocomplete`
constructor: each field is absent (`none`) or a given value; for the
numeric fields `some 0` models a falsy `0` argument. -/
structure OptionsIn where
  minCharacters : Option Nat
  maxSuggestions : Option Nat
  caseSensitive : Option Bool
  highlightMatch : Option Bool
  debounceDelay : Option Nat
deriving DecidableEq, Repr

/-- JS `x || d` for a numeric option: the default when the option is
absent or `0` (falsy), the value otherwise. -/
def orDefaultNat (x : Option Nat) (d : Nat) : Nat :=
  match x with
  | none => d
  | some n => if n = 0 then d else n

/-- JS `x || false` for a boolean option. -/
def orFalse (x : Option Bool) : Bool :=
  match x with
  | none => false
  | some b => b

/-- The resolved `this.options` of the controller. -/
structure Options where
  minCharacters : Nat
  maxSuggestions : Nat
  caseSensitive : Bool
  highlightMatch : Bool
  debounceDelay : Nat
deriving DecidableEq, Repr

/-- The option-resolution lines of the `ProductAutocomplete`
constructor (`options.minCharacters || 2`, …,
`options.highlightMatch !== false`). -/
def resolveOptions (o : OptionsIn) : Options :=
  { minCharacters := orDefaultNat o.minCharacters 2
  , maxSuggestions := orDefaultNat o.maxSuggestions 10
  , caseSensitive := orFalse o.caseSensitive
  , highlightMatch := decide (o.highlightMatch ≠ some false)
  , debounceDelay := orDefaultNat o.debounceDelay 150 }

/-- The `ProductAutocomplete` controller state relevant to the claims:
its trie, resolved options, result cache with its bound (100), and the
module-level `productList` it reads. (DOM handles, the debounce timer,
the highlight-regex cache and the session cursor are UI state with no
bearing on the claims.) -/
structure ProductAutocomplete where
  trie : Trie
  options : Options
  cachedResults : List (Str × List Str)
  maxCacheSize : Nat
  productList : List Str

/-- Method `initializeTrie()`: no-op on an empty product list; otherwise
uppercase the product list (unless `caseSensitive`) and `bulkInsert`
it into the existing trie — note the trie is not re-created. -/
def processedProducts (o : Options) (l : List Str) : List Str :=
  if o.caseSensitive then l else l.map upper

def initTrie (pa : ProductAutocomplete) : ProductAutocomplete :=
  if pa.productList.isEmpty then pa
  else { pa with trie := pa.trie.bulkInsert (processedProducts pa.options pa.productList) }

/-- The `ProductAutocomplete` constructor: fresh trie, resolved
options, empty result cache bounded at 100, then `initializeTrie()`. -/
def mkProductAutocomplete (o : OptionsIn) (products : List Str) : ProductAutocomplete :=
  initTrie { trie := Trie.new, options := resolveOptions o, cachedResults := [],
             maxCacheSize := 100, productList := products }

/-- Result of `ProductAutocomplete.getSuggestions`. -/
structure PAResult where
  suggestions : List Str
  state : ProductAutocomplete

/-- Method `ProductAutocomplete.getSuggestions(prefix)`: empty below
`minCharacters`; otherwise uppercase the query (unless
`caseSensitive`), consult the controller cache, and on a miss query
the trie (default limit 10), truncate to `maxSuggestions` and cache
the result with FIFO eviction at 100 entries. -/
def ProductAutocomplete.getSuggestions (pa : ProductAutocomplete) (p : Str) : PAResult :=
  if p.isEmpty || decide (p.length < pa.options.minCharacters) then ⟨[], pa⟩
  else
    let key := if pa.options.caseSensitive then p else upper p
    match lookupCache pa.cachedResults key with
    | some v => ⟨v, pa⟩
    | none =>
      let r := pa.trie.getSuggestions key 10
      let limited := r.suggestions.take pa.options.maxSuggestions
      ⟨limited,
       { pa with trie := r.trie,
                 cachedResults := cacheStore pa.maxCacheSize pa.cachedResults key limited }⟩

/-- Method `clearCaches()`: clear the result cache (the highlight-regex cache
is not modelled). -/
def ProductAutocomplete.clearCaches (pa : ProductAutocomplete) : ProductAutocomplete :=
  { pa with cachedResults := [] }

/-- Semantics of `Object.assign(target, src)` on JS arrays: overwrite the indices
of `src` onto `target`; indices of `target` beyond `src.length` are
kept (the array is not truncated). -/
def objectAssign (target src : List Str) : List Str :=
  src ++ target.drop src.length

/-- Method `updateProductList(newProductList)`: clear the caches, assign the
new list onto the module-level product list, and run
`initializeTrie()` again (on the existing trie). -/
def ProductAutocomplete.updateProductList (pa : ProductAutocomplete) (newList : List Str) :
    ProductAutocomplete :=
  initTrie { pa.clearCaches with productList := objectAssign pa.productList newList }

/-! ### Observations of the trie at a character path -/

/-- The end-of-word flag of the node reached by `q` (false when the
path is missing). -/
def endAt (n : TrieNode) (q : Str) : Bool :=
  ((nodeAt n q).map TrieNode.isEndOfWord).getD false

/-- The stored word of the node reached by `q`. -/
def wordAt (n : TrieNode) (q : Str) : Option Str :=
  ((nodeAt n q).map TrieNode.word).getD none

/-- The frequency counter of the node reached by `q`. -/
def freqAt (n : TrieNode) (q : Str) : Nat :=
  ((nodeAt n q).map TrieNode.frequency).getD 0

/-- Whether the path `q` exists in the trie. -/
def hasPath (n : TrieNode) (q : Str) : Bool :=
  (nodeAt n q).isSome

/-- Shorthand turning a Lean string literal into the character-list
model of a JS string. -/
def str (x : String) : Str := x.toList

/-- The ranking order of the spec, read off the comparator of
`Trie.autocomplete`: `a` sorts no later than `b` iff `a` has strictly
higher frequency, or equal frequency and strictly higher popularity,
or equal frequency and popularity and a word no longer than `b`'s. -/
def rankedBefore (a b : Sugg) : Prop :=
  b.frequency < a.frequency
    ∨ (a.frequency = b.frequency ∧ b.popularity < a.popularity)
    ∨ (a.frequency = b.frequency ∧ a.popularity = b.popularity
        ∧ a.word.length ≤ b.word.length)

/-- Well-formedness of the words stored beneath a node sitting at path
`cur`: every end-of-word node in the subtree stores a word whose
lowercase folding is exactly the full path from the root to that node.
Inserting `w` stores the literal `w` along the path `lower w`, so every
trie reachable by `insert` calls satisfies this at the root. -/
inductive GoodNode : TrieNode → Str → Prop where
| intro (cs : List (Char × TrieNode)) (e : Bool) (w : Option Str) (f pop : Nat) (cur : Str)
    (hw : e = true → ∃ v, w = some v ∧ lower v = cur)
    (hc : ∀ c m, (c, m) ∈ cs → GoodNode m (cur ++ [c])) :
    GoodNode (.mk cs e w f pop) cur

theorem findChild_setChild (cs : List (Char × TrieNode)) (c d : Char) (m : TrieNode) :
    findChild (setChild cs c m) d = if c = d then some m else findChild cs d := by
  induction cs with
  | nil => simp [setChild, findChild]
  | cons hd tl ih =>
    obtain ⟨c₀, m₀⟩ := hd
    by_cases h₀ : c₀ = c
    · subst h₀
      by_cases h₁ : c₀ = d <;> simp [setChild, findChild, h₁]
    · by_cases h₁ : c₀ = d
      · subst h₁
        have hcc : ¬c = c₀ := fun h => h₀ h.symm
        simp [setChild, findChild, h₀, hcc]
      · simp [setChild, findChild, h₀, h₁, ih]

theorem fieldAt_bumpPop {β : Type} (g : TrieNode → β) (dflt : β)
    (hg : ∀ cs cs' e wo f pop pop', g (.mk cs e wo f pop) = g (.mk cs' e wo f pop'))
    (m : TrieNode) (q : Str) :
    ((nodeAt m.bumpPop q).map g).getD dflt = ((nodeAt m q).map g).getD dflt := by
  obtain ⟨cs, e, wo, f, pop⟩ := m
  cases q with
  | nil => simpa [nodeAt, TrieNode.bumpPop] using hg cs cs e wo f (pop + 1) pop
  | cons x xs => simp [nodeAt, TrieNode.bumpPop, TrieNode.children]

theorem fieldAt_bumpPop_empty {β : Type} (g : TrieNode → β) (dflt : β)
    (hdflt : ∀ cs pop, g (.mk cs false none 0 pop) = dflt) (q : Str) :
    ((nodeAt TrieNode.empty.bumpPop q).map g).getD dflt = dflt := by
  cases q with
  | nil => simpa [nodeAt, TrieNode.bumpPop, TrieNode.empty] using hdflt [] 1
  | cons x xs => simp [nodeAt, TrieNode.bumpPop, TrieNode.empty, TrieNode.children, findChild]

/-- The master lemma describing how `insertAux` changes a
children-and-popularity-independent field of the node at a path `q`:
the field at the inserted path is rewritten by `tv`, every other path
is untouched. -/
theorem fieldAt_insertAux {β : Type} (g : TrieNode → β) (dflt : β) (w : Str) (tv : β → β)
    (hg : ∀ cs cs' e wo f pop pop', g (.mk cs e wo f pop) = g (.mk cs' e wo f pop'))
    (hterm : ∀ cs e wo f pop, g (.mk cs true (some w) (f + 1) pop) = tv (g (.mk cs e wo f pop)))
    (hdflt : ∀ cs pop, g (.mk cs false none 0 pop) = dflt) :
    ∀ (p : Str) (n : TrieNode) (q : Str),
      ((nodeAt (insertAux n p w) q).map g).getD dflt
        = if q = p then tv (((nodeAt n q).map g).getD dflt)
          else ((nodeAt n q).map g).getD dflt := by
  intro p
  induction p with
  | nil =>
    intro n q
    obtain ⟨cs, e, wo, f, pop⟩ := n
    cases q with
    | nil => simpa [insertAux, nodeAt] using hterm cs e wo f pop
    | cons c qrest => simp [insertAux, nodeAt, TrieNode.children]
  | cons c rest ih =>
    intro n q
    obtain ⟨cs, e, wo, f, pop⟩ := n
    cases q with
    | nil =>
      rw [if_neg (by simp)]
      simpa [insertAux, nodeAt] using hg (setChild cs c _) cs e wo f pop pop
    | cons d qrest =>
      by_cases hdc : c = d
      · subst hdc
        simp only [insertAux, nodeAt, TrieNode.children, findChild_setChild, if_pos rfl,
          eq_self_iff_true, if_true, Option.some_bind]
        rw [ih]
        by_cases hq : qrest = rest
        · subst hq
          rw [if_pos rfl, if_pos rfl]
          congr 1
          cases hfc : findChild cs c with
          | none => simp [hfc, fieldAt_bumpPop_empty g dflt hdflt]
          | some m => simp [hfc, fieldAt_bumpPop g dflt hg m qrest]
        · have hne : (c :: qrest) ≠ (c :: rest) := by simp [hq]
          rw [if_neg hq, if_neg hne]
          cases hfc : findChild cs c with
          | none => simp [hfc, fieldAt_bumpPop_empty g dflt hdflt]
          | some m => simp [hfc, fieldAt_bumpPop g dflt hg m qrest]
      · have hne : (d :: qrest) ≠ (c :: rest) := by
          intro h
          exact hdc (by injection h with h1 _ ; exact h1.symm)
        rw [if_neg hne]
        simp [insertAux, nodeAt, TrieNode.children, findChild_setChild, if_neg hdc]

theorem endAt_insertAux (n : TrieNode) (p : Str) (w : Str) (q : Str) :
    endAt (insertAux n p w) q = if q = p then true else endAt n q := by
  simpa [endAt] using
    fieldAt_insertAux TrieNode.isEndOfWord false w (fun _ => true)
      (fun _ _ _ _ _ _ _ => rfl) (fun _ _ _ _ _ => rfl) (fun _ _ => rfl) p n q

theorem wordAt_insertAux (n : TrieNode) (p : Str) (w : Str) (q : Str) :
    wordAt (insertAux n p w) q = if q = p then some w else wordAt n q := by
  simpa [wordAt] using
    fieldAt_insertAux TrieNode.word none w (fun _ => some w)
      (fun _ _ _ _ _ _ _ => rfl) (fun _ _ _ _ _ => rfl) (fun _ _ => rfl) p n q

theorem freqAt_insertAux (n : TrieNode) (p : Str) (w : Str) (q : Str) :
    freqAt (insertAux n p w) q = if q = p then freqAt n q + 1 else freqAt n q := by
  have h := fieldAt_insertAux TrieNode.frequency 0 w (fun x => x + 1)
    (fun _ _ _ _ _ _ _ => rfl) (fun _ _ _ _ _ => rfl) (fun _ _ => rfl) p n q
  by_cases hq : q = p <;> simpa [freqAt, hq] using h

theorem hasPath_eq_fieldAt (n : TrieNode) (q : Str) :
    hasPath n q = ((nodeAt n q).map fun _ => true).getD false := by
  unfold hasPath
  cases nodeAt n q <;> simp

theorem hasPath_bumpPop (m : TrieNode) (q : Str) : hasPath m.bumpPop q = hasPath m q := by
  obtain ⟨cs, e, wo, f, pop⟩ := m
  cases q with
  | nil => simp [hasPath, nodeAt, TrieNode.bumpPop]
  | cons x xs => simp [hasPath, nodeAt, TrieNode.bumpPop, TrieNode.children]

theorem hasPath_bumpPop_empty (q : Str) :
    hasPath TrieNode.empty.bumpPop q = decide (q = []) := by
  cases q with
  | nil => simp [hasPath, nodeAt, TrieNode.bumpPop, TrieNode.empty]
  | cons x xs =>
    simp [hasPath, nodeAt, TrieNode.bumpPop, TrieNode.empty, TrieNode.children, findChild]

theorem hasPath_insertAux (p : Str) : ∀ (n : TrieNode) (q : Str) (w : Str),
    hasPath (insertAux n p w) q = (hasPath n q || decide (q <+: p)) := by
  induction p with
  | nil =>
    intro n q w
    obtain ⟨cs, e, wo, f, pop⟩ := n
    cases q with
    | nil => simp [insertAux, nodeAt, hasPath]
    | cons c qrest => simp [insertAux, nodeAt, hasPath, TrieNode.children]
  | cons c rest ih =>
    intro n q w
    obtain ⟨cs, e, wo, f, pop⟩ := n
    cases q with
    | nil => simp [insertAux, nodeAt, hasPath]
    | cons d qrest =>
      by_cases hdc : c = d
      · subst hdc
        have hlhs : hasPath (insertAux (.mk cs e wo f pop) (c :: rest) w) (c :: qrest)
            = hasPath (insertAux ((findChild cs c).getD TrieNode.empty).bumpPop rest w) qrest := by
          simp [hasPath, insertAux, nodeAt, TrieNode.children, findChild_setChild]
        rw [hlhs, ih]
        cases hfc : findChild cs c with
        | none =>
          have hrhs : hasPath (.mk cs e wo f pop) (c :: qrest) = false := by
            simp [hasPath, nodeAt, TrieNode.children, hfc]
          rw [hrhs, show (none : Option TrieNode).getD TrieNode.empty = TrieNode.empty from rfl,
            hasPath_bumpPop_empty]
          cases qrest with
          | nil => simp
          | cons x xs => simp [List.cons_prefix_cons]
        | some m =>
          have hrhs : hasPath (.mk cs e wo f pop) (c :: qrest) = hasPath m qrest := by
            simp [hasPath, nodeAt, TrieNode.children, hfc]
          rw [hrhs]
          simp [hasPath_bumpPop, List.cons_prefix_cons]
      · have hpre : decide ((d :: qrest) <+: (c :: rest)) = false := by
          simp only [decide_eq_false_iff_not]
          intro h
          rw [List.cons_prefix_cons] at h
          exact hdc h.1.symm
        have hlhs : hasPath (insertAux (.mk cs e wo f pop) (c :: rest) w) (d :: qrest)
            = hasPath (.mk cs e wo f pop) (d :: qrest) := by
          simp [hasPath, insertAux, nodeAt, TrieNode.children, findChild_setChild, hdc]
        rw [hlhs, hpre]
        simp

/-! ### Lifting the path lemmas to whole-trie operations -/

theorem Trie.search_eq (t : Trie) (w : Str) : t.search w = endAt t.root (lower w) := by
  unfold Trie.search endAt
  cases nodeAt t.root (lower w) <;> simp

theorem Trie.startsWith_eq (t : Trie) (p : Str) : t.startsWith p = hasPath t.root (lower p) := rfl

theorem endAt_insert (t : Trie) (v q : Str) :
    endAt (t.insert v).root q = if q = lower v then true else endAt t.root q :=
  endAt_insertAux t.root (lower v) v q

theorem wordAt_insert (t : Trie) (v q : Str) :
    wordAt (t.insert v).root q = if q = lower v then some v else wordAt t.root q :=
  wordAt_insertAux t.root (lower v) v q

theorem freqAt_insert (t : Trie) (v q : Str) :
    freqAt (t.insert v).root q = if q = lower v then freqAt t.root q + 1 else freqAt t.root q :=
  freqAt_insertAux t.root (lower v) v q

theorem hasPath_insert (t : Trie) (v q : Str) :
    hasPath (t.insert v).root q = (hasPath t.root q || decide (q <+: lower v)) :=
  hasPath_insertAux (lower v) t.root q v

theorem bulkInsert_cons (t : Trie) (v : Str) (ws : List Str) :
    t.bulkInsert (v :: ws) = (t.insert v).bulkInsert ws := rfl

theorem bulkInsert_nil (t : Trie) : t.bulkInsert [] = t := rfl

theorem endAt_bulkInsert : ∀ (ws : List Str) (t : Trie) (q : Str),
    endAt (t.bulkInsert ws).root q = (endAt t.root q || ws.any fun v => decide (lower v = q)) := by
  intro ws
  induction ws with
  | nil => simp [bulkInsert_nil]
  | cons v ws ih =>
    intro t q
    rw [bulkInsert_cons, ih, endAt_insert]
    by_cases h : q = lower v
    · simp [h]
    · have hd : decide (lower v = q) = false := by
        simpa using fun hh : lower v = q => h hh.symm
      simp [h, hd]

theorem hasPath_bulkInsert : ∀ (ws : List Str) (t : Trie) (q : Str),
    hasPath (t.bulkInsert ws).root q
      = (hasPath t.root q || ws.any fun v => decide (q <+: lower v)) := by
  intro ws
  induction ws with
  | nil => simp [bulkInsert_nil]
  | cons v ws ih =>
    intro t q
    rw [bulkInsert_cons, ih, hasPath_insert]
    simp [Bool.or_assoc, Bool.or_comm (decide (q <+: lower v))]

theorem freqAt_bulkInsert : ∀ (ws : List Str) (t : Trie) (q : Str),
    freqAt (t.bulkInsert ws).root q
      = freqAt t.root q + ws.countP fun v => decide (lower v = q) := by
  intro ws
  induction ws with
  | nil => simp [bulkInsert_nil]
  | cons v ws ih =>
    intro t q
    rw [bulkInsert_cons, ih, freqAt_insert, List.countP_cons]
    by_cases h : q = lower v
    · simp [h]
      omega
    · have hd : decide (lower v = q) = false := by
        simpa using fun hh : lower v = q => h hh.symm
      simp [h, hd]

theorem wordAt_bulkInsert : ∀ (ws : List Str) (t : Trie) (q : Str),
    wordAt (t.bulkInsert ws).root q
      = (ws.reverse.find? fun v => decide (lower v = q)).or (wordAt t.root q) := by
  intro ws
  induction ws with
  | nil => simp [bulkInsert_nil]
  | cons v ws ih =>
    intro t q
    rw [bulkInsert_cons, ih, wordAt_insert]
    rw [show (v :: ws).reverse = ws.reverse ++ [v] from by simp, List.find?_append]
    cases hf : ws.reverse.find? fun v => decide (lower v = q) with
    | some x => simp
    | none =>
      by_cases h : q = lower v
      · simp [List.find?, h]
      · have hd : decide (lower v = q) = false := by
          simpa using fun hh : lower v = q => h hh.symm
        simp [List.find?, h, hd]

theorem endAt_new (q : Str) : endAt Trie.new.root q = false := by
  cases q with
  | nil => simp [Trie.new, endAt, nodeAt, TrieNode.empty, TrieNode.isEndOfWord]
  | cons c rest => simp [Trie.new, endAt, nodeAt, TrieNode.empty, TrieNode.children, findChild]

theorem hasPath_new (q : Str) : hasPath Trie.new.root q = decide (q = []) := by
  cases q with
  | nil => simp [Trie.new, hasPath, nodeAt]
  | cons c rest =>
    simp [Trie.new, hasPath, nodeAt, TrieNode.empty, TrieNode.children, findChild]

theorem freqAt_new (q : Str) : freqAt Trie.new.root q = 0 := by
  cases q with
  | nil => simp [Trie.new, freqAt, nodeAt, TrieNode.empty, TrieNode.frequency]
  | cons c rest => simp [Trie.new, freqAt, nodeAt, TrieNode.empty, TrieNode.children, findChild]

theorem wordAt_new (q : Str) : wordAt Trie.new.root q = none := by
  cases q with
  | nil => simp [Trie.new, wordAt, nodeAt, TrieNode.empty, TrieNode.word]
  | cons c rest => simp [Trie.new, wordAt, nodeAt, TrieNode.empty, TrieNode.children, findChild]

/-! ### Claim C2: search as membership of the inserted vocabulary -/

/-- C2, counterexample to the claim as stated: after inserting the
single word "hello", `search("HELLO")` returns true although "HELLO"
was never inserted — `search` matches modulo lowercase folding, not
exact membership of the inserted vocabulary. -/
theorem c2_counterexample :
    (buildTrie [str "hello"]).search (str "HELLO") = true
      ∧ str "HELLO" ∉ [str "hello"] := by
  constructor
  · decide
  · decide

/-- C2 (amended): `search(W)` is true exactly when some inserted word
has the same lowercase folding as `W`; in particular every inserted
word is found, and a word no case variant of which was inserted is
not. -/
theorem c2_search_iff_member (ws : List Str) (w : Str) :
    (buildTrie ws).search w = true ↔ ∃ v ∈ ws, lower v = lower w := by
  rw [Trie.search_eq, buildTrie, endAt_bulkInsert, endAt_new]
  simp [List.any_eq_true]

/-! ### Claim C7: startsWith as prefix of the inserted vocabulary -/

/-- C7, counterexample to the claim as stated: on an empty trie
`startsWith("")` is true though no inserted word extends ""; and with
only "a" inserted, `startsWith("A")` is true though no inserted word
literally extends "A" — the check is modulo lowercase folding and the
empty prefix is always present. -/
theorem c7_counterexample :
    ((buildTrie ([] : List Str)).startsWith ([] : Str) = true
      ∧ ∀ v ∈ ([] : List Str), ¬([] : Str) <+: v)
    ∧ ((buildTrie [str "a"]).startsWith (str "A") = true
      ∧ ∀ v ∈ [str "a"], ¬str "A" <+: v) := by
  refine ⟨⟨by decide, by simp⟩, ⟨by decide, ?_⟩⟩
  intro v hv
  simp only [List.mem_singleton] at hv
  subst hv
  decide

/-- C7 (amended): `startsWith(p)` is true exactly when `p` is empty or
the lowercase folding of some inserted word extends the lowercase
folding of `p`; in particular, for every inserted word `W` and literal
prefix `p` of `W`, `startsWith(p)` is true. -/
theorem c7_startsWith_iff_prefix :
    (∀ (ws : List Str) (p : Str),
      (buildTrie ws).startsWith p = true ↔ p = [] ∨ ∃ v ∈ ws, lower p <+: lower v)
    ∧ (∀ (ws : List Str) (w p : Str), w ∈ ws → p <+: w →
        (buildTrie ws).startsWith p = true) := by
  have main : ∀ (ws : List Str) (p : Str),
      (buildTrie ws).startsWith p = true ↔ p = [] ∨ ∃ v ∈ ws, lower p <+: lower v := by
    intro ws p
    rw [Trie.startsWith_eq, buildTrie, hasPath_bulkInsert, hasPath_new]
    simp [List.any_eq_true, lower, List.map_eq_nil_iff]
  refine ⟨main, ?_⟩
  intro ws w p hw hp
  exact (main ws p).mpr (Or.inr ⟨w, hw, List.IsPrefix.map Char.toLower hp⟩)

/-- Witness for C7: instantiating the amended claim at a concrete
vocabulary, word and prefix, discharging its hypotheses there. -/
theorem c7_startsWith_iff_prefix_witness :
    str "ab" ∈ [str "ab"] ∧ str "a" <+: str "ab"
      ∧ (buildTrie [str "ab"]).startsWith (str "a") = true :=
  ⟨by decide, by decide,
    c7_startsWith_iff_prefix.2 [str "ab"] (str "ab") (str "a") (by decide) (by decide)⟩

/-! ### Cache lemmas -/

theorem bulkInsert_cache_cons : ∀ (ws : List Str) (t : Trie) (w : Str),
    (t.bulkInsert (w :: ws)).cache = [] := by
  intro ws
  induction ws with
  | nil => intro t w; rfl
  | cons w' ws ih =>
    intro t w
    rw [bulkInsert_cons]
    exact ih (t.insert w) w'

theorem buildTrie_cache (ws : List Str) : (buildTrie ws).cache = [] := by
  cases ws with
  | nil => rfl
  | cons w ws => exact bulkInsert_cache_cons ws Trie.new w

theorem lookupCache_none_any (c : List (Str × List Str)) (k : Str) :
    lookupCache c k = none → (c.any fun e => decide (e.1 = k)) = false := by
  induction c with
  | nil => intro _; rfl
  | cons e rest ih =>
    obtain ⟨k₀, v₀⟩ := e
    intro h
    by_cases hk : k₀ = k
    · simp [lookupCache, hk] at h
    · simp only [lookupCache, if_neg hk] at h
      simp [hk, ih h]

theorem mapSet_append (c : List (Str × List Str)) (k : Str) (v : List Str)
    (h : (c.any fun e => decide (e.1 = k)) = false) : mapSet c k v = c ++ [(k, v)] := by
  unfold mapSet
  rw [h]
  simp

theorem mapSet_length (c : List (Str × List Str)) (k : Str) (v : List Str) :
    (mapSet c k v).length
      = if (c.any fun e => decide (e.1 = k)) then c.length else c.length + 1 := by
  unfold mapSet
  split <;> simp_all

theorem cacheStore_length_le (maxSize : Nat) (c : List (Str × List Str)) (k : Str)
    (v : List Str) (hmax : 1 ≤ maxSize) (hlen : c.length ≤ maxSize) :
    (cacheStore maxSize c k v).length ≤ maxSize := by
  unfold cacheStore
  split
  · rw [mapSet_length]
    have ht : c.tail.length = c.length - 1 := by simp [List.length_tail]
    split <;> omega
  · rw [mapSet_length]
    split <;> omega

theorem cacheStore_evict (maxSize : Nat) (c : List (Str × List Str)) (k : Str)
    (v : List Str) (hfull : maxSize ≤ c.length) (hnew : lookupCache c k = none) :
    cacheStore maxSize c k v = c.tail ++ [(k, v)] := by
  have hany : (c.any fun e => decide (e.1 = k)) = false := lookupCache_none_any c k hnew
  have htail : (c.tail.any fun e => decide (e.1 = k)) = false := by
    cases c with
    | nil => rfl
    | cons e rest => simp only [List.any_cons, Bool.or_eq_false_iff] at hany; simp [hany.2]
  unfold cacheStore
  rw [if_pos hfull]
  exact mapSet_append c.tail k v htail

theorem cacheStore_of_empty (maxSize : Nat) (k : Str) (v : List Str) :
    cacheStore maxSize [] k v = [(k, v)] := by
  unfold cacheStore
  split <;> simp [mapSet]

/-! ### Claim C5: full cache invalidation on vocabulary mutation -/

/-- C5: every `insert` ends by clearing the trie's suggestion cache,
hence any `bulkInsert` of at least one word leaves the cache empty,
and `updateProductList` clears the controller's result cache — no
later query can be answered from a ranking computed before the
mutation. -/
theorem c5_cache_invalidated_on_mutation :
    (∀ (t : Trie) (w : Str), (t.insert w).cache = [])
    ∧ (∀ (t : Trie) (w : Str) (ws : List Str), (t.bulkInsert (w :: ws)).cache = [])
    ∧ (∀ (pa : ProductAutocomplete) (l : List Str),
        (pa.updateProductList l).cachedResults = []) := by
  refine ⟨fun t w => rfl, fun t w ws => bulkInsert_cache_cons ws t w, ?_⟩
  intro pa l
  unfold ProductAutocomplete.updateProductList initTrie
  split <;> rfl

/-! ### Claim C10: falsy configuration values fall back to defaults -/

/-- C10: a zero (falsy) `minCharacters`, `maxSuggestions` or
`debounceDelay` is replaced by the defaults 2, 10 and 150, so the
resolved options can never hold a zero for these fields, while the
resolved `highlightMatch` is false exactly when the option was
explicitly false; the constructor installs exactly these resolved
options. -/
theorem c10_falsy_options_get_defaults :
    (∀ (c h : Option Bool),
        (resolveOptions ⟨some 0, some 0, c, h, some 0⟩).minCharacters = 2
        ∧ (resolveOptions ⟨some 0, some 0, c, h, some 0⟩).maxSuggestions = 10
        ∧ (resolveOptions ⟨some 0, some 0, c, h, some 0⟩).debounceDelay = 150)
    ∧ (∀ o : OptionsIn,
        (resolveOptions o).minCharacters ≠ 0
        ∧ (resolveOptions o).maxSuggestions ≠ 0
        ∧ (resolveOptions o).debounceDelay ≠ 0)
    ∧ (∀ o : OptionsIn,
        ((resolveOptions o).highlightMatch = false ↔ o.highlightMatch = some false))
    ∧ (∀ (o : OptionsIn) (l : List Str),
        (mkProductAutocomplete o l).options = resolveOptions o) := by
  refine ⟨fun c h => ⟨rfl, rfl, rfl⟩, ?_, ?_, ?_⟩
  · intro o
    obtain ⟨mc, ms, cse, hm, dd⟩ := o
    refine ⟨?_, ?_, ?_⟩
    · cases mc with
      | none => simp [resolveOptions, orDefaultNat]
      | some n => by_cases hn : n = 0 <;> simp [resolveOptions, orDefaultNat, hn]
    · cases ms with
      | none => simp [resolveOptions, orDefaultNat]
      | some n => by_cases hn : n = 0 <;> simp [resolveOptions, orDefaultNat, hn]
    · cases dd with
      | none => simp [resolveOptions, orDefaultNat]
      | some n => by_cases hn : n = 0 <;> simp [resolveOptions, orDefaultNat, hn]
  · intro o
    obtain ⟨mc, ms, cse, hm, dd⟩ := o
    cases hm with
    | none => simp [resolveOptions]
    | some b => cases b <;> simp [resolveOptions]
  · intro o l
    unfold mkProductAutocomplete initTrie
    split <;> rfl

/-! ### Claim C8: bounded caches with FIFO eviction -/

/-- C8: the cache-store step never lets a cache exceed its size bound;
at capacity it evicts exactly the single oldest-inserted entry,
leaving the remaining entries unchanged (`c.tail` verbatim) and
appending the new one; the trie's bound is 1000 and the controller's
is 100; consequently `autocomplete` preserves the trie cache bound. -/
theorem c8_cache_capacity_fifo :
    (∀ (maxSize : Nat) (c : List (Str × List Str)) (k : Str) (v : List Str),
        1 ≤ maxSize → c.length ≤ maxSize → (cacheStore maxSize c k v).length ≤ maxSize)
    ∧ (∀ (maxSize : Nat) (c : List (Str × List Str)) (k : Str) (v : List Str),
        maxSize ≤ c.length → lookupCache c k = none →
          cacheStore maxSize c k v = c.tail ++ [(k, v)])
    ∧ Trie.new.maxCacheSize = 1000
    ∧ (∀ (o : OptionsIn) (l : List Str), (mkProductAutocomplete o l).maxCacheSize = 100)
    ∧ (∀ (t : Trie) (p : Str) (o : AutoOptions),
        1 ≤ t.maxCacheSize → t.cache.length ≤ t.maxCacheSize →
          (t.autocomplete p o).trie.cache.length ≤ t.maxCacheSize) := by
  refine ⟨cacheStore_length_le, cacheStore_evict, rfl, ?_, ?_⟩
  · intro o l
    unfold mkProductAutocomplete initTrie
    split <;> rfl
  · intro t p o h1 h2
    simp only [Trie.autocomplete]
    cases h : lookupCache t.cache (cacheTag ++ if o.caseSensitive then p else lower p) with
    | some v => simpa using h2
    | none =>
      cases hn : nodeAt t.root (if o.caseSensitive then p else lower p) with
      | none => simpa using h2
      | some n => simpa using cacheStore_length_le _ _ _ _ h1 h2

/-- Witness for C8: the bound-preservation conjunct instantiated at a
concrete one-word trie and query, hypotheses discharged there. -/
theorem c8_cache_capacity_fifo_witness :
    1 ≤ (buildTrie [str "a"]).maxCacheSize
    ∧ (buildTrie [str "a"]).cache.length ≤ (buildTrie [str "a"]).maxCacheSize
    ∧ ((buildTrie [str "a"]).autocomplete (str "a") defaultAutoOptions).trie.cache.length
        ≤ (buildTrie [str "a"]).maxCacheSize :=
  ⟨by decide, by decide,
    c8_cache_capacity_fifo.2.2.2.2 (buildTrie [str "a"]) (str "a") defaultAutoOptions
      (by decide) (by decide)⟩

/-! ### Helper lemmas describing `autocomplete`'s three paths -/

theorem autocomplete_hit (t : Trie) (p : Str) (o : AutoOptions) (v : List Str)
    (h2 : o.caseSensitive = false)
    (h : lookupCache t.cache (cacheTag ++ lower p) = some v) :
    t.autocomplete p o = ⟨v, t, false⟩ := by
  simp only [Trie.autocomplete, h2, Bool.false_eq_true, if_false, h]

theorem autocomplete_miss_none (t : Trie) (p : Str) (o : AutoOptions)
    (h1 : t.cache = []) (h2 : o.caseSensitive = false)
    (h3 : nodeAt t.root (lower p) = none) :
    t.autocomplete p o = ⟨[], t, true⟩ := by
  simp only [Trie.autocomplete, h1, h2, Bool.false_eq_true, if_false, lookupCache, h3]

theorem autocomplete_miss_some (t : Trie) (p : Str) (o : AutoOptions) (n : TrieNode)
    (h1 : t.cache = []) (h2 : o.caseSensitive = false)
    (h3 : nodeAt t.root (lower p) = some n) :
    t.autocomplete p o =
      ⟨((rankSuggestions (collect n (lower p) o.minWordLength o.maxWordLength)).map
          Sugg.word).take o.limit,
       { root := t.root,
         cache := [(cacheTag ++ lower p,
           ((rankSuggestions (collect n (lower p) o.minWordLength o.maxWordLength)).map
             Sugg.word).take o.limit)],
         maxCacheSize := t.maxCacheSize }, true⟩ := by
  simp only [Trie.autocomplete, h1, h2, Bool.false_eq_true, if_false, lookupCache, h3,
    cacheStore_of_empty]

/-! ### Claim C6: repeated identical queries are served from the cache -/

/-- C6 (amended): when the prefix walk succeeds, the first
`autocomplete` call stores its ranked result in the result cache under
the query's key, and an immediately repeated identical query returns
exactly that cached value, leaving the state unchanged and touching
the trie not at all (`traversed = false`); a query whose prefix walk
fails is not cached (see the counterexample). -/
theorem c6_repeated_query_cached (t : Trie) (p : Str) (o : AutoOptions) (n : TrieNode)
    (h1 : t.cache = []) (h2 : o.caseSensitive = false)
    (h3 : nodeAt t.root (lower p) = some n) :
    (t.autocomplete p o).trie.cache
        = [(cacheTag ++ lower p, (t.autocomplete p o).suggestions)]
    ∧ (t.autocomplete p o).trie.autocomplete p o
        = ⟨(t.autocomplete p o).suggestions, (t.autocomplete p o).trie, false⟩ := by
  have hm := autocomplete_miss_some t p o n h1 h2 h3
  rw [hm]
  exact ⟨rfl, autocomplete_hit _ p o _ h2 (by simp [lookupCache])⟩

/-- Witness for C6 at a concrete one-word trie and present prefix. -/
theorem c6_repeated_query_cached_witness :
    ((buildTrie [str "ab"]).autocomplete (str "a") defaultAutoOptions).trie.autocomplete
        (str "a") defaultAutoOptions
      = ⟨((buildTrie [str "ab"]).autocomplete (str "a") defaultAutoOptions).suggestions,
         ((buildTrie [str "ab"]).autocomplete (str "a") defaultAutoOptions).trie, false⟩ := by
  rcases hn : nodeAt (buildTrie [str "ab"]).root (lower (str "a")) with _ | n
  · have hs : (nodeAt (buildTrie [str "ab"]).root (lower (str "a"))).isSome = true := by decide
    rw [hn] at hs
    simp at hs
  · exact (c6_repeated_query_cached (buildTrie [str "ab"]) (str "a") defaultAutoOptions n
      (buildTrie_cache _) rfl hn).2

/-- C6, counterexample to the claim as stated: for a prefix with no
path in the trie (here "a" against the single word "b") the first call
does not store its (empty) result in the cache — the cache stays empty
and the repeated identical query walks the trie again instead of
returning a cached value. -/
theorem c6_counterexample :
    ((buildTrie [str "b"]).autocomplete (str "a") defaultAutoOptions).trie.cache = []
    ∧ (((buildTrie [str "b"]).autocomplete (str "a") defaultAutoOptions).trie.autocomplete
        (str "a") defaultAutoOptions).traversed = true := by
  have h3 : nodeAt (buildTrie [str "b"]).root (lower (str "a")) = none := by
    rcases hh : nodeAt (buildTrie [str "b"]).root (lower (str "a")) with _ | n
    · rfl
    · have hs : (nodeAt (buildTrie [str "b"]).root (lower (str "a"))).isSome = false := by decide
      rw [hh] at hs
      simp at hs
  have h := autocomplete_miss_none (buildTrie [str "b"]) (str "a") defaultAutoOptions
    (buildTrie_cache _) rfl h3
  constructor
  · rw [h]
    exact buildTrie_cache _
  · rw [h]
    show (((buildTrie [str "b"])).autocomplete (str "a") defaultAutoOptions).traversed = true
    rw [h]

/-! ### Claim C9: the literal argument of the latest insert wins -/

theorem rankSuggestions_singleton (a : Sugg) : rankSuggestions [a] = [a] :=
  List.mergeSort_of_sorted (by simp)

/-- C9: `insert(w)` walks the lowercased path but stores the literal
`w` at the terminal node it marks; inserting a case variant `w'` with
the same folding reaches the same node, overwrites the stored word
with `w'` and increments the shared frequency; consequently
autocomplete surfaces the most recently inserted case variant, as
checked on the concrete vocabulary ["Foo", "FOO"]. -/
theorem c9_literal_word_latest_variant :
    (∀ (t : Trie) (w : Str),
        wordAt (t.insert w).root (lower w) = some w
        ∧ endAt (t.insert w).root (lower w) = true
        ∧ freqAt (t.insert w).root (lower w) = freqAt t.root (lower w) + 1)
    ∧ (∀ (t : Trie) (w w' : Str), lower w' = lower w →
        wordAt ((t.insert w).insert w').root (lower w) = some w'
        ∧ freqAt ((t.insert w).insert w').root (lower w) = freqAt t.root (lower w) + 2)
    ∧ ((buildTrie [str "Foo", str "FOO"]).autocomplete (str "foo")
        defaultAutoOptions).suggestions = [str "FOO"] := by
  refine ⟨?_, ?_, ?_⟩
  · intro t w
    refine ⟨?_, ?_, ?_⟩
    · rw [wordAt_insert, if_pos rfl]
    · rw [endAt_insert, if_pos rfl]
    · rw [freqAt_insert, if_pos rfl]
  · intro t w w' h
    constructor
    · rw [wordAt_insert, if_pos h.symm]
    · rw [freqAt_insert, if_pos h.symm, freqAt_insert, if_pos rfl]
  · rcases hn : nodeAt (buildTrie [str "Foo", str "FOO"]).root (lower (str "foo")) with _ | n
    · have hs : (nodeAt (buildTrie [str "Foo", str "FOO"]).root
          (lower (str "foo"))).isSome = true := by decide
      rw [hn] at hs
      simp at hs
    · rw [autocomplete_miss_some _ _ _ n (buildTrie_cache _) rfl hn]
      have h2 : (nodeAt (buildTrie [str "Foo", str "FOO"]).root (lower (str "foo"))).map
          (fun m => collect m (lower (str "foo")) 1 none)
          = some [⟨str "FOO", 2, 2⟩] := by decide
      rw [hn] at h2
      dsimp only [defaultAutoOptions]
      rw [show collect n (lower (str "foo")) 1 none = [⟨str "FOO", 2, 2⟩] from
        Option.some.inj h2, rankSuggestions_singleton]
      rfl

/-- Witness for C9: the case-variant conjunct at the concrete pair
"Foo" / "FOO" over the empty trie, hypothesis discharged there. -/
theorem c9_literal_word_latest_variant_witness :
    lower (str "FOO") = lower (str "Foo")
    ∧ wordAt ((Trie.new.insert (str "Foo")).insert (str "FOO")).root (lower (str "Foo"))
        = some (str "FOO")
    ∧ freqAt ((Trie.new.insert (str "Foo")).insert (str "FOO")).root (lower (str "Foo"))
        = freqAt Trie.new.root (lower (str "Foo")) + 2 :=
  ⟨by decide,
    (c9_literal_word_latest_variant.2.1 Trie.new (str "Foo") (str "FOO") (by decide)).1,
    (c9_literal_word_latest_variant.2.1 Trie.new (str "Foo") (str "FOO") (by decide)).2⟩

/-! ### Claim C1: the ranking order of suggestions -/

theorem rankLE_trans (a b c : Sugg) :
    rankLE a b = true → rankLE b c = true → rankLE a c = true := by
  unfold rankLE
  split_ifs <;> simp_all <;> omega

theorem rankLE_total (a b : Sugg) : (rankLE a b || rankLE b a) = true := by
  unfold rankLE
  split_ifs <;> simp_all <;> omega

/-- C1: the ranked sequence computed by `autocomplete` is sorted by
frequency descending, then popularity descending, then word length
ascending — pairwise, an earlier element has strictly higher
frequency, or equal frequency and strictly higher popularity, or
equal frequency and popularity and a word no longer than the later
one's; and on a freshly built trie the returned sequence is exactly
this ranked sequence mapped to its words and truncated to `limit`. -/
theorem c1_suggestions_ranked :
    (∀ l : List Sugg, (rankSuggestions l).Pairwise rankedBefore)
    ∧ (∀ (ws : List Str) (p : Str) (lim minL : Nat) (maxL : Option Nat),
        ((buildTrie ws).autocomplete p ⟨lim, false, minL, maxL⟩).suggestions
          = match nodeAt (buildTrie ws).root (lower p) with
            | none => []
            | some n =>
                ((rankSuggestions (collect n (lower p) minL maxL)).map Sugg.word).take lim) := by
  constructor
  · intro l
    have h := List.sorted_mergeSort (α := Sugg) rankLE_trans rankLE_total l
    refine h.imp ?_
    intro a b hab
    unfold rankLE at hab
    unfold rankedBefore
    split_ifs at hab <;> simp_all <;> omega
  · intro ws p lim minL maxL
    cases hn : nodeAt (buildTrie ws).root (lower p) with
    | none => rw [autocomplete_miss_none _ _ _ (buildTrie_cache _) rfl hn]
    | some n => rw [autocomplete_miss_some _ _ _ n (buildTrie_cache _) rfl hn]

/-! ### Stored words lie on their own lowercased paths -/

theorem findChild_mem : ∀ (cs : List (Char × TrieNode)) (c : Char) (m : TrieNode),
    findChild cs c = some m → (c, m) ∈ cs := by
  intro cs c m
  induction cs with
  | nil => intro h; simp [findChild] at h
  | cons e rest ih =>
    obtain ⟨c₀, m₀⟩ := e
    intro h
    by_cases hc : c₀ = c
    · subst hc
      simp only [findChild, eq_self_iff_true, if_true, Option.some.injEq] at h
      subst h
      exact List.mem_cons_self _ _
    · simp only [findChild, if_neg hc] at h
      exact List.mem_cons_of_mem _ (ih h)

theorem mem_setChild : ∀ (cs : List (Char × TrieNode)) (c : Char) (x : TrieNode)
    (d : Char) (n : TrieNode),
    (d, n) ∈ setChild cs c x → (d, n) = (c, x) ∨ (d, n) ∈ cs := by
  intro cs c x
  induction cs with
  | nil =>
    intro d n h
    simp only [setChild, List.mem_singleton] at h
    exact Or.inl h
  | cons e rest ih =>
    obtain ⟨c₀, m₀⟩ := e
    intro d n h
    by_cases hc : c₀ = c
    · subst hc
      simp only [setChild, eq_self_iff_true, if_true, List.mem_cons] at h
      rcases h with h | h
      · exact Or.inl h
      · exact Or.inr (List.mem_cons_of_mem _ h)
    · simp only [setChild, if_neg hc, List.mem_cons] at h
      rcases h with h | h
      · exact Or.inr (h ▸ List.mem_cons_self _ _)
      · rcases ih d n h with h' | h'
        · exact Or.inl h'
        · exact Or.inr (List.mem_cons_of_mem _ h')

theorem GoodNode.bump {m : TrieNode} {cur : Str} (h : GoodNode m cur) :
    GoodNode m.bumpPop cur := by
  cases h with
  | intro cs e w f pop cur hw hc => exact .intro cs e w f (pop + 1) cur hw hc

theorem goodNode_empty (cur : Str) : GoodNode TrieNode.empty cur :=
  .intro [] false none 0 0 cur (by simp) (by simp)

theorem goodNode_insertAux : ∀ (p : Str) (n : TrieNode) (cur w : Str),
    lower w = cur ++ p → GoodNode n cur → GoodNode (insertAux n p w) cur := by
  intro p
  induction p with
  | nil =>
    intro n cur w hw hg
    cases hg with
    | intro cs e w₀ f pop cur hw₀ hc =>
      exact .intro cs true (some w) (f + 1) pop cur
        (fun _ => ⟨w, rfl, by simpa using hw⟩) hc
  | cons c rest ih =>
    intro n cur w hw hg
    cases hg with
    | intro cs e w₀ f pop cur hw₀ hc =>
      refine .intro _ e w₀ f pop cur hw₀ ?_
      intro d m hm
      rcases mem_setChild cs c _ d m hm with heq | hmem
      · obtain ⟨hd, hm'⟩ := Prod.mk.inj heq
        subst hm'
        rw [hd]
        refine ih _ (cur ++ [c]) w (by simpa using hw) ?_
        cases hfc : findChild cs c with
        | none => exact (goodNode_empty _).bump
        | some m₀ => exact (hc c m₀ (findChild_mem cs c m₀ hfc)).bump
      · exact hc d m hmem

theorem goodNode_bulkInsert : ∀ (ws : List Str) (t : Trie),
    GoodNode t.root [] → GoodNode (t.bulkInsert ws).root [] := by
  intro ws
  induction ws with
  | nil => intro t h; exact h
  | cons w ws ih =>
    intro t h
    rw [bulkInsert_cons]
    exact ih (t.insert w) (goodNode_insertAux (lower w) t.root [] w (by simp) h)

theorem goodNode_buildTrie (ws : List Str) : GoodNode (buildTrie ws).root [] :=
  goodNode_bulkInsert ws Trie.new (goodNode_empty [])

theorem goodNode_nodeAt : ∀ (q : Str) (n : TrieNode) (cur : Str) (m : TrieNode),
    GoodNode n cur → nodeAt n q = some m → GoodNode m (cur ++ q) := by
  intro q
  induction q with
  | nil =>
    intro n cur m hg h
    simp only [nodeAt, Option.some.injEq] at h
    subst h
    simpa using hg
  | cons c rest ih =>
    intro n cur m hg h
    cases hg with
    | intro cs e w f pop cur hw hc =>
      simp only [nodeAt, TrieNode.children] at h
      cases hfc : findChild cs c with
      | none => rw [hfc] at h; simp at h
      | some m₀ =>
        rw [hfc, Option.some_bind] at h
        have := ih m₀ (cur ++ [c]) m (hc c m₀ (findChild_mem cs c m₀ hfc)) h
        simpa using this

theorem mem_collectList : ∀ (cs : List (Char × TrieNode)) (cur : Str) (minL : Nat)
    (maxL : Option Nat) (s : Sugg), s ∈ collectList cs cur minL maxL →
      ∃ c m, (c, m) ∈ cs ∧ s ∈ collect m (cur ++ [c]) minL maxL := by
  intro cs cur minL maxL s
  induction cs with
  | nil => intro h; simp [collectList] at h
  | cons e rest ih =>
    obtain ⟨c, m⟩ := e
    intro h
    simp only [collectList] at h
    rcases List.mem_append.mp h with h1 | h2
    · exact ⟨c, m, List.mem_cons_self _ _, h1⟩
    · obtain ⟨c', m', hm, hs⟩ := ih h2
      exact ⟨c', m', List.mem_cons_of_mem _ hm, hs⟩

/-- Every suggestion collected beneath a well-formed node at path
`cur` stores a word whose lowercase folding extends `cur`. -/
theorem collect_good (n : TrieNode) (cur : Str) (h : GoodNode n cur) :
    ∀ (minL : Nat) (maxL : Option Nat) (s : Sugg),
      s ∈ collect n cur minL maxL → cur <+: lower s.word := by
  induction h with
  | intro cs e w f pop cur hw hc ih =>
    intro minL maxL s hs
    simp only [collect] at hs
    rcases List.mem_append.mp hs with h1 | h2
    · by_cases hcond : (e && lenOK minL maxL cur.length) = true
      · rw [if_pos hcond] at h1
        simp only [List.mem_singleton] at h1
        subst h1
        have he : e = true := by
          cases e
          · simp at hcond
          · rfl
        obtain ⟨v, hv, hlow⟩ := hw he
        simp only [hv, Option.getD_some]
        exact hlow ▸ List.prefix_refl _
      · rw [if_neg hcond] at h1
        simp at h1
    · obtain ⟨c, m, hm, hs'⟩ := mem_collectList cs cur minL maxL s h2
      exact (List.prefix_append cur [c]).trans (ih c m hm minL maxL s hs')

/-! ### Claim C3: suggestions extend the prefix, bounded by the limit -/

/-- C3 (amended): on a freshly built trie with the deployed
case-insensitive configuration, every word returned by `autocomplete`
has a lowercase folding that extends the lowercased prefix (it starts
with the case-normalized prefix only up to case folding, not
literally); if any character of the prefix has no path the result is
empty and nothing is cached; and a freshly computed result never
exceeds `limit` — a later identical query served from the cache keeps
the length of the query that populated the cache, because the cache
key ignores the options (see the counterexample). -/
theorem c3_suggestions_prefix_and_limit :
    (∀ (ws : List Str) (p : Str) (o : AutoOptions) (w : Str), o.caseSensitive = false →
        w ∈ ((buildTrie ws).autocomplete p o).suggestions → lower p <+: lower w)
    ∧ (∀ (ws : List Str) (p : Str) (o : AutoOptions), o.caseSensitive = false →
        nodeAt (buildTrie ws).root (lower p) = none →
          (buildTrie ws).autocomplete p o = ⟨[], buildTrie ws, true⟩)
    ∧ (∀ (ws : List Str) (p : Str) (o : AutoOptions), o.caseSensitive = false →
        ((buildTrie ws).autocomplete p o).suggestions.length ≤ o.limit) := by
  refine ⟨?_, ?_, ?_⟩
  · intro ws p o w hcs hmem
    cases hn : nodeAt (buildTrie ws).root (lower p) with
    | none =>
      rw [autocomplete_miss_none _ _ _ (buildTrie_cache _) hcs hn] at hmem
      simp at hmem
    | some n =>
      rw [autocomplete_miss_some _ _ _ n (buildTrie_cache _) hcs hn] at hmem
      have hw' := List.mem_of_mem_take hmem
      obtain ⟨s, hs, rfl⟩ := List.mem_map.mp hw'
      have hsC : s ∈ collect n (lower p) o.minWordLength o.maxWordLength :=
        List.mem_mergeSort.mp hs
      have hgood : GoodNode n (lower p) := by
        simpa using goodNode_nodeAt (lower p) (buildTrie ws).root [] n
          (goodNode_buildTrie ws) hn
      exact collect_good n (lower p) hgood _ _ s hsC
  · intro ws p o hcs hn
    exact autocomplete_miss_none _ _ _ (buildTrie_cache _) hcs hn
  · intro ws p o hcs
    cases hn : nodeAt (buildTrie ws).root (lower p) with
    | none =>
      rw [autocomplete_miss_none _ _ _ (buildTrie_cache _) hcs hn]
      simp
    | some n =>
      rw [autocomplete_miss_some _ _ _ n (buildTrie_cache _) hcs hn]
      simpa using List.length_take_le _ _

/-- Witness for C3: the amended claim instantiated on the vocabulary
["ab"] with prefix "a", hypotheses discharged concretely. -/
theorem c3_suggestions_prefix_and_limit_witness :
    ((buildTrie [str "ab"]).autocomplete (str "a") defaultAutoOptions).suggestions.length
      ≤ defaultAutoOptions.limit :=
  c3_suggestions_prefix_and_limit.2.2 [str "ab"] (str "a") defaultAutoOptions rfl

/-- C3, counterexample to the claim as stated: (i) after inserting the
literal "Ab", the query "ab" returns the stored word "Ab", which does
not literally start with the case-normalized prefix "ab"; (ii) the
result cache is keyed by the prefix alone, so querying "a" with the
default limit 10 and then again with limit 1 returns the cached
two-element list, exceeding the configured limit. -/
theorem c3_counterexample :
    (((buildTrie [str "Ab"]).autocomplete (str "ab") defaultAutoOptions).suggestions
        = [str "Ab"]
      ∧ ¬(str "ab" <+: str "Ab"))
    ∧ ¬((((buildTrie [str "aa", str "ab"]).autocomplete (str "a")
          defaultAutoOptions).trie.autocomplete (str "a")
            (AutoOptions.mk 1 false 1 none)).suggestions.length
        ≤ (AutoOptions.mk 1 false 1 none).limit) := by
  refine ⟨⟨?_, by decide⟩, ?_⟩
  · rcases hn : nodeAt (buildTrie [str "Ab"]).root (lower (str "ab")) with _ | n
    · have hs : (nodeAt (buildTrie [str "Ab"]).root (lower (str "ab"))).isSome = true := by
        decide
      rw [hn] at hs
      simp at hs
    · rw [autocomplete_miss_some _ _ _ n (buildTrie_cache _) rfl hn]
      have h2 : (nodeAt (buildTrie [str "Ab"]).root (lower (str "ab"))).map
          (fun m => collect m (lower (str "ab")) 1 none) = some [⟨str "Ab", 1, 1⟩] := by decide
      rw [hn] at h2
      dsimp only [defaultAutoOptions]
      rw [show collect n (lower (str "ab")) 1 none = [⟨str "Ab", 1, 1⟩] from
        Option.some.inj h2, rankSuggestions_singleton]
      rfl
  · rcases hn : nodeAt (buildTrie [str "aa", str "ab"]).root (lower (str "a")) with _ | n
    · have hs : (nodeAt (buildTrie [str "aa", str "ab"]).root
          (lower (str "a"))).isSome = true := by decide
      rw [hn] at hs
      simp at hs
    · rw [autocomplete_miss_some _ _ _ n (buildTrie_cache _) rfl hn]
      dsimp only [defaultAutoOptions]
      have h2 : (nodeAt (buildTrie [str "aa", str "ab"]).root (lower (str "a"))).map
          (fun m => (collect m (lower (str "a")) 1 none).length) = some 2 := by decide
      rw [hn] at h2
      have hlen : (collect n (lower (str "a")) 1 none).length = 2 := Option.some.inj h2
      rw [autocomplete_hit _ _ _
        (((rankSuggestions (collect n (lower (str "a")) 1 none)).map Sugg.word).take 10)
        rfl (by simp [lookupCache])]
      simp only [List.length_take, List.length_map, rankSuggestions,
        (List.mergeSort_perm (collect n (lower (str "a")) 1 none) rankLE).length_eq]
      rw [hlen]
      decide

/-! ### Claim C4: updateProductList does not rebuild the trie wholesale -/

/-- C4, the code contradicting the claimed wholesale rebuild: starting
from the vocabulary ["AA", "BB"], `updateProductList(["CC"])` leaves
"AA" searchable (the old trie is bulk-inserted into, never re-created),
carries the frequency of "BB" over to 2 (because `Object.assign` keeps
the old tail entry "BB", which is then re-inserted), and leaves the
product list as ["CC", "BB"] rather than ["CC"]. -/
theorem c4_update_keeps_old_vocabulary :
    ((mkProductAutocomplete ⟨none, none, none, none, none⟩
        [str "AA", str "BB"]).updateProductList [str "CC"]).trie.search (str "AA") = true
    ∧ freqAt ((mkProductAutocomplete ⟨none, none, none, none, none⟩
        [str "AA", str "BB"]).updateProductList [str "CC"]).trie.root (str "bb") = 2
    ∧ ((mkProductAutocomplete ⟨none, none, none, none, none⟩
        [str "AA", str "BB"]).updateProductList [str "CC"]).productList
        = [str "CC", str "BB"] := by
  refine ⟨by decide, by decide, by decide⟩

end Cotishama
